import Mathlib

/-!
Verification of the SMPTE 2038-2008 subpicture decoder
(`modules/codec/smpte2038.c`).

The development shallowly embeds the decoder's state and its three entry
points:

* `pes_cb` — the PES-extractor callback that applies the PTS skew, opens a
  new (empty) subpicture when the PTS changes and no subpicture is pending,
  and enqueues the raw PES buffer on the pending frame queue;
* `Decode` — the decoder entry point, which filters corrupted / unstamped
  blocks, caches the demux PTS, runs the extractor (firing `pes_cb` once per
  complete PES buffer) and hands a newly opened subpicture to the host;
* `SubpictureTextUpdateSmpte2038` — the display-time update callback, which
  drains every queue entry whose PTS is not beyond the frame being displayed
  and turns its ancillary lines into positioned regions.

The libklvanc routines `smpte2038_parse_pes_packet` and
`smpte2038_convert_line_to_words`, and the Kernel Labs PES extractor
(`pes_extractor.c`), are external to this module; their outcomes are
modelled as oracle data attached to the inputs (a parse result attached to
each PES buffer, a word-expansion result attached to each line, and the
list of PES buffers the extractor emits attached to each input block).
Re-parsing the same bytes gives the same result, so a PES buffer is
identified with its parse outcome.  Heap allocation
(`decoder_NewSubpictureSmpte2038`, `block_Alloc`, `subpicture_region_New`)
is modelled as always succeeding.  VLC's `mtime_t` timestamps are embedded
as `Int` (C division on them truncates toward zero, `Int.tdiv`); unsigned
fields are embedded as `Nat`.
-/

namespace Smpte2038

/-- Embeds one ancillary data line (`struct smpte2038_anc_data_line_s`).
`convResult` is the oracle outcome of the external
`smpte2038_convert_line_to_words`: `none` models a negative return
(parity/format validation failure), `some ws` success with the expanded
16-bit word sequence. -/
structure AncLine where
  line_number : Nat
  DID : Nat
  SDID : Nat
  convResult : Option (List Nat)
deriving Repr, DecidableEq

/-- Embeds the result of the external `smpte2038_parse_pes_packet`: the
declared PES PTS (90kHz units) and the ancillary data lines. -/
structure AncPacket where
  PTS : Int
  lines : List AncLine
deriving Repr, DecidableEq

/-- Embeds a raw PES buffer as handed to `pes_cb` by the PES extractor,
identified with its parse outcome (`none` models a failed
`smpte2038_parse_pes_packet`). -/
structure RawPES where
  parsed : Option AncPacket
deriving Repr, DecidableEq

/-- Embeds an entry of the pending frame queue (a `block_t` on
`p_sys->fifo`): `i_pts` is the skew-adjusted PTS assigned at enqueue time
and `payload` the copied PES bytes. -/
structure FifoBlock where
  i_pts : Int
  payload : RawPES
deriving Repr, DecidableEq

/-- Embeds a subpicture region (`subpicture_region_t`) as configured by the
drain loop; `pixels` is the word buffer copied into `Y_PIXELS`. -/
structure Region where
  i_x : Nat
  i_y : Nat
  i_width : Nat
  i_height : Nat
  pixels : List Nat
deriving Repr, DecidableEq

/-- Embeds a subpicture (`subpicture_t`) together with its updater-private
data (`subpicture_updater_sys_t.i_pts`).  `regions` is the `p_region`
linked list, head first. -/
structure Subpic where
  i_start : Int
  i_stop : Int
  i_pts : Int
  b_ephemer : Bool
  b_absolute : Bool
  i_original_picture_width : Nat
  i_original_picture_height : Nat
  regions : List Region
deriving Repr, DecidableEq

/-- Embeds `struct decoder_sys_t` (minus the opaque extractor handle). -/
structure DecoderSys where
  subpic : Option Subpic
  fifo : List FifoBlock
  i_last_pts : Int
  i_demux_pts : Int
  i_pts_skew : Int
deriving Repr, DecidableEq

/-- State set up by `Open`: `calloc` zeroes every field and the fifo starts
empty. -/
def initSys : DecoderSys :=
  { subpic := none, fifo := [], i_last_pts := 0, i_demux_pts := 0, i_pts_skew := 0 }

/-- VLC's `CLOCK_FREQ` (microseconds per second), an `int64_t`. -/
def CLOCK_FREQ : Int := 1000000

/-- Embeds `pes_cb` (smpte2038.c lines 223-288): adjust the parsed PTS by
the current skew; if the adjusted PTS differs from the last seen PTS and no
subpicture is pending, open a new empty subpicture (computing the skew if it
is still zero) and record the new PTS; in every successful-parse case append
the raw buffer to the pending frame queue keyed by the adjusted PTS. -/
def pes_cb (sys : DecoderSys) (buf : RawPES) : DecoderSys :=
  match buf.parsed with
  | none => sys
  | some pkt =>
    let p : Int := pkt.PTS + sys.i_pts_skew
    let sys1 :=
      if p ≠ sys.i_last_pts ∧ sys.subpic = none then
        let skew := if sys.i_pts_skew = 0 then sys.i_demux_pts - p else sys.i_pts_skew
        let start := (p * 100).tdiv 9
        let spu : Subpic :=
          { i_start := start
            i_stop := start + CLOCK_FREQ.tdiv 30
            i_pts := p
            b_ephemer := false
            b_absolute := true
            i_original_picture_width := 0
            i_original_picture_height := 0
            regions := [] }
        { sys with subpic := some spu, i_pts_skew := skew, i_last_pts := p }
      else sys
    { sys1 with fifo := sys1.fifo ++ [{ i_pts := p, payload := buf }] }

/-- Embeds one input block handed to `Decode`.  `pes` abstracts the Kernel
Labs PES extractor (`pe_push`): the complete PES buffers the extractor emits,
in order, while this block's transport packets are pushed. -/
structure InputBlock where
  corrupted : Bool
  i_pts : Int
  pes : List RawPES
deriving Repr, DecidableEq

/-- Embeds `Decode` (smpte2038.c lines 355-395): drop a missing or corrupted
block or one whose PTS is not positive; otherwise cache the demux PTS, run
the extractor (firing `pes_cb` per complete PES buffer) and hand off any
newly created subpicture.  Returns the updated state and the subpicture
returned to the host. -/
def Decode (sys : DecoderSys) (blk : Option InputBlock) : DecoderSys × Option Subpic :=
  match blk with
  | none => (sys, none)
  | some b =>
    if b.corrupted then (sys, none)
    else if b.i_pts ≤ 0 then (sys, none)
    else
      let sys2 := b.pes.foldl pes_cb { sys with i_demux_pts := b.i_pts }
      match sys2.subpic with
      | some spu => ({ sys2 with subpic := none }, some spu)
      | none => (sys2, none)

/-- Runs `Decode` over a list of input blocks, keeping only the state. -/
def runDecode (sys : DecoderSys) (blocks : List InputBlock) : DecoderSys :=
  blocks.foldl (fun s b => (Decode s (some b)).1) sys

/-- Region built by the drain loop for one successfully expanded line
(smpte2038.c lines 171-190): width twice the word count, height 1, placed at
column 0 on the line's line number. -/
def regionOfLine (l : AncLine) (ws : List Nat) : Region :=
  { i_x := 0
    i_y := l.line_number
    i_width := ws.length * 2
    i_height := 1
    pixels := ws }

/-- Embeds the per-packet line loop (smpte2038.c lines 156-193): expand each
line in order; a failed `smpte2038_convert_line_to_words` breaks out of the
loop, so the rest of the packet is skipped; each built region is pushed on
the front of the region list. -/
def processLines : List AncLine → List Region → List Region
  | [], regs => regs
  | l :: ls, regs =>
    match l.convResult with
    | none => regs
    | some ws => processLines ls (regionOfLine l ws :: regs)

/-- Regions of a list of lines in source order, skipping lines that fail
word expansion (used to state what the drain loop produces). -/
def regionsOfLines (ls : List AncLine) : List Region :=
  ls.filterMap fun l => l.convResult.map (regionOfLine l)

/-- Embeds the drain loop of `SubpictureTextUpdateSmpte2038` (lines
132-195): while the queue head's PTS is not beyond `target`, pop it; a
failed re-parse releases the block and continues; otherwise its lines are
turned into regions.  Returns the remaining queue, the final region list and
the popped blocks in pop order. -/
def drainLoop (target : Int) :
    List FifoBlock → List Region → List FifoBlock × List Region × List FifoBlock
  | [], regs => ([], regs, [])
  | b :: rest, regs =>
    if b.i_pts > target then (b :: rest, regs, [])
    else
      match b.payload.parsed with
      | none =>
        let r := drainLoop target rest regs
        (r.1, r.2.1, b :: r.2.2)
      | some pkt =>
        let r := drainLoop target rest (processLines pkt.lines regs)
        (r.1, r.2.1, b :: r.2.2)

/-- Destination video format fields read by the update callback.  In VLC
these four fields are unsigned, so the C test `i_sar_num <= 0` is a test for
zero. -/
structure VideoFormat where
  i_sar_num : Nat
  i_sar_den : Nat
  i_width : Nat
  i_height : Nat
deriving Repr, DecidableEq

/-- Embeds `SubpictureTextUpdateSmpte2038` (lines 114-196), the display-time
update callback.  `target` is `subpic->updater.p_sys->i_pts`, the frame's
skew-adjusted PTS recorded at creation; `fifo` is the decoder's pending
frame queue.  With a degenerate sample aspect ratio nothing happens;
otherwise the original picture size is set and the queue is drained into
regions.  Returns the updated subpicture, the remaining queue and the popped
entries. -/
def SubpictureTextUpdateSmpte2038 (subpic : Subpic) (target : Int)
    (fmt_dst : VideoFormat) (fifo : List FifoBlock) :
    Subpic × List FifoBlock × List FifoBlock :=
  if fmt_dst.i_sar_num = 0 ∨ fmt_dst.i_sar_den = 0 then (subpic, fifo, [])
  else
    let subpic1 := { subpic with
      i_original_picture_width := fmt_dst.i_width * fmt_dst.i_sar_num / fmt_dst.i_sar_den
      i_original_picture_height := fmt_dst.i_height }
    let r := drainLoop target fifo subpic1.regions
    ({ subpic1 with regions := r.2.1 }, r.1, r.2.2)

/-- A fresh empty subpicture, standing for the per-frame subpicture a drain
call populates (its identity does not affect which queue entries are
popped). -/
def sub0 : Subpic :=
  { i_start := 0, i_stop := 0, i_pts := 0, b_ephemer := false, b_absolute := true
    i_original_picture_width := 0, i_original_picture_height := 0, regions := [] }

/-- Repeated display-time drains, one update-callback invocation per target
in order; returns the remaining queue and the concatenation of all popped
entries in pop order. -/
def drainMany (fmt_dst : VideoFormat) : List Int → List FifoBlock → List FifoBlock × List FifoBlock
  | [], fifo => (fifo, [])
  | t :: ts, fifo =>
    let r := SubpictureTextUpdateSmpte2038 sub0 t fmt_dst fifo
    let rest := drainMany fmt_dst ts r.2.1
    (rest.1, r.2.2 ++ rest.2)

/-- A 1:1 sample aspect ratio destination format, used in witnesses. -/
def fmt1 : VideoFormat := { i_sar_num := 1, i_sar_den := 1, i_width := 720, i_height := 480 }

/-- Sample PES buffer (parses, no lines), used in witnesses. -/
def pesA : RawPES := { parsed := some { PTS := 7, lines := [] } }

/-- Sample ancillary line whose word expansion succeeds. -/
def lineA : AncLine := { line_number := 9, DID := 97, SDID := 1, convResult := some [1, 2, 3, 4] }

/-- Second sample ancillary line whose word expansion succeeds. -/
def lineB : AncLine := { line_number := 11, DID := 97, SDID := 1, convResult := some [5, 6] }

/-- Sample ancillary line whose word expansion fails validation. -/
def lineBad : AncLine := { line_number := 12, DID := 97, SDID := 1, convResult := none }

/-- Sample decoder state with a cached demux PTS of 100, used in witnesses. -/
def sysW : DecoderSys :=
  { subpic := none, fifo := [], i_last_pts := 0, i_demux_pts := 100, i_pts_skew := 0 }

/-- Sample input block at demux PTS 200 whose single PES buffer declares PTS
107 (93 below the demux clock), used in witnesses. -/
def blockW : InputBlock :=
  { corrupted := false, i_pts := 200, pes := [{ parsed := some { PTS := 107, lines := [] } }] }

/-- Shorthand for queue entries that are due at `target` (the drain loop
pops exactly a maximal prefix of these). -/
def dueAt (target : Int) (b : FifoBlock) : Bool := b.i_pts ≤ target

/-- Characterisation of the drain loop on the queue: the remaining queue is
the suffix past the maximal due prefix, and the popped entries are exactly
that prefix, in order. -/
theorem drainLoop_queue_spec (target : Int) (fifo : List FifoBlock) (regs : List Region) :
    (drainLoop target fifo regs).1 = fifo.dropWhile (dueAt target) ∧
      (drainLoop target fifo regs).2.2 = fifo.takeWhile (dueAt target) := by
  induction fifo generalizing regs with
  | nil => simp [drainLoop]
  | cons b rest ih =>
    by_cases h : b.i_pts > target
    · have hdue : dueAt target b = false := by simp [dueAt]; omega
      simp [drainLoop, h, List.dropWhile_cons, List.takeWhile_cons, hdue]
    · have hdue : dueAt target b = true := by simp [dueAt]; omega
      cases hp : b.payload.parsed with
      | none =>
        simp [drainLoop, h, hp, List.dropWhile_cons, List.takeWhile_cons, hdue,
          (ih regs).1, (ih regs).2]
      | some pkt =>
        simp [drainLoop, h, hp, List.dropWhile_cons, List.takeWhile_cons, hdue,
          (ih (processLines pkt.lines regs)).1, (ih (processLines pkt.lines regs)).2]

/-- In every drain call the popped entries followed by the remaining queue
reassemble the original queue. -/
theorem update_queue_partition (subpic : Subpic) (target : Int)
    (fmt_dst : VideoFormat) (fifo : List FifoBlock) :
    (SubpictureTextUpdateSmpte2038 subpic target fmt_dst fifo).2.2 ++
      (SubpictureTextUpdateSmpte2038 subpic target fmt_dst fifo).2.1 = fifo := by
  unfold SubpictureTextUpdateSmpte2038
  by_cases hg : fmt_dst.i_sar_num = 0 ∨ fmt_dst.i_sar_den = 0
  · simp [hg]
  · simp only [hg, if_false]
    rw [(drainLoop_queue_spec target fifo _).1, (drainLoop_queue_spec target fifo _).2]
    exact List.takeWhile_append_dropWhile (dueAt target) fifo

/-- Queue characterisation of one drain call with a non-degenerate aspect
ratio. -/
theorem update_queue_spec (subpic : Subpic) (target : Int)
    (fmt_dst : VideoFormat) (fifo : List FifoBlock)
    (hfmt : fmt_dst.i_sar_num ≠ 0 ∧ fmt_dst.i_sar_den ≠ 0) :
    (SubpictureTextUpdateSmpte2038 subpic target fmt_dst fifo).2.1 =
        fifo.dropWhile (dueAt target) ∧
      (SubpictureTextUpdateSmpte2038 subpic target fmt_dst fifo).2.2 =
        fifo.takeWhile (dueAt target) := by
  unfold SubpictureTextUpdateSmpte2038
  have hg : ¬(fmt_dst.i_sar_num = 0 ∨ fmt_dst.i_sar_den = 0) := by
    rcases hfmt with ⟨h1, h2⟩
    intro hc
    rcases hc with hc | hc <;> [exact h1 hc; exact h2 hc]
  simp only [hg, if_false]
  exact ⟨(drainLoop_queue_spec target fifo _).1, (drainLoop_queue_spec target fifo _).2⟩

/-- Draining an empty queue leaves it empty and pops nothing, whatever the
targets. -/
theorem drainMany_nil_fifo (fmt_dst : VideoFormat) (ts : List Int) :
    drainMany fmt_dst ts [] = ([], []) := by
  induction ts with
  | nil => rfl
  | cons t ts ih =>
    unfold drainMany SubpictureTextUpdateSmpte2038
    by_cases hg : fmt_dst.i_sar_num = 0 ∨ fmt_dst.i_sar_den = 0 <;>
      simp [hg, drainLoop, ih]

/-- Across repeated drain calls, the concatenated popped entries followed by
the remaining queue reassemble the original queue. -/
theorem drainMany_partition (fmt_dst : VideoFormat) (ts : List Int) (fifo : List FifoBlock) :
    (drainMany fmt_dst ts fifo).2 ++ (drainMany fmt_dst ts fifo).1 = fifo := by
  induction ts generalizing fifo with
  | nil => simp [drainMany]
  | cons t ts ih =>
    unfold drainMany
    rw [List.append_assoc, ih]
    exact update_queue_partition sub0 t fmt_dst fifo

/-- Once some drain target dominates the PTS of every queued entry, the
queue is empty after the run of drain calls. -/
theorem drainMany_clears (fmt_dst : VideoFormat) (ts : List Int) (fifo : List FifoBlock)
    (hfmt : fmt_dst.i_sar_num ≠ 0 ∧ fmt_dst.i_sar_den ≠ 0)
    (hcover : ∃ t ∈ ts, ∀ b ∈ fifo, b.i_pts ≤ t) :
    (drainMany fmt_dst ts fifo).1 = [] := by
  induction ts generalizing fifo with
  | nil => simp at hcover
  | cons t0 ts ih =>
    obtain ⟨t, ht, hall⟩ := hcover
    unfold drainMany
    rcases List.mem_cons.mp ht with rfl | hts
    · have hrem : (SubpictureTextUpdateSmpte2038 sub0 t fmt_dst fifo).2.1 = [] := by
        rw [(update_queue_spec sub0 t fmt_dst fifo hfmt).1]
        rw [List.dropWhile_eq_nil_iff]
        intro b hb
        simpa [dueAt] using hall b hb
      simp [hrem, drainMany_nil_fifo]
    · apply ih
      refine ⟨t, hts, fun b hb => hall b ?_⟩
      rw [(update_queue_spec sub0 t0 fmt_dst fifo hfmt).1] at hb
      exact (List.dropWhile_sublist (dueAt t0)).mem hb

/-- Claim C1: a drain invocation given a frame's `target_pts` never removes
a pending-frame-queue entry whose PTS is strictly greater than `target_pts`;
every such entry is still in the queue afterwards. -/
theorem drain_keeps_future_entries (subpic : Subpic) (target : Int)
    (fmt_dst : VideoFormat) (fifo : List FifoBlock) (b : FifoBlock)
    (hb : b ∈ fifo) (hgt : target < b.i_pts) :
    b ∈ (SubpictureTextUpdateSmpte2038 subpic target fmt_dst fifo).2.1 := by
  by_cases hg : fmt_dst.i_sar_num = 0 ∨ fmt_dst.i_sar_den = 0
  · unfold SubpictureTextUpdateSmpte2038
    simpa [hg] using hb
  · have hfmt : fmt_dst.i_sar_num ≠ 0 ∧ fmt_dst.i_sar_den ≠ 0 := by
      constructor <;> intro hc <;> exact hg (by simp [hc])
    rw [(update_queue_spec subpic target fmt_dst fifo hfmt).1]
    have hsplit := List.takeWhile_append_dropWhile (dueAt target) fifo
    rw [← hsplit] at hb
    rcases List.mem_append.mp hb with hb | hb
    · have := List.mem_takeWhile_imp hb
      simp [dueAt] at this
      omega
    · exact hb

/-- Witness for C1 at a concrete queue. -/
theorem drain_keeps_future_entries_witness :
    ({ i_pts := 10, payload := { parsed := none } } : FifoBlock) ∈
      (SubpictureTextUpdateSmpte2038 sub0 5 fmt1
        [{ i_pts := 2, payload := { parsed := none } },
         { i_pts := 10, payload := { parsed := none } }]).2.1 :=
  drain_keeps_future_entries sub0 5 fmt1 _ _ (by decide) (by decide)

/-- Claim C2: starting from any queue, invoking drain repeatedly with
monotonically increasing targets, the last of which is at least every queued
PTS, dequeues every entry exactly once, in original arrival order — the
popped entries across the calls are exactly the original queue and nothing
remains. -/
theorem repeated_drain_dequeues_all_in_order (fmt_dst : VideoFormat)
    (ts : List Int) (fifo : List FifoBlock)
    (hfmt : fmt_dst.i_sar_num ≠ 0 ∧ fmt_dst.i_sar_den ≠ 0)
    (hmono : List.Chain' (· < ·) ts)
    (hcover : ∃ t ∈ ts, ∀ b ∈ fifo, b.i_pts ≤ t) :
    (drainMany fmt_dst ts fifo).2 = fifo ∧ (drainMany fmt_dst ts fifo).1 = [] := by
  have hempty := drainMany_clears fmt_dst ts fifo hfmt hcover
  have hpart := drainMany_partition fmt_dst ts fifo
  rw [hempty, List.append_nil] at hpart
  exact ⟨hpart, hempty⟩

/-- Witness for C2 at a concrete queue and target sequence. -/
theorem repeated_drain_dequeues_all_in_order_witness :
    (drainMany fmt1 [5, 25]
        [{ i_pts := 3, payload := { parsed := none } },
         { i_pts := 20, payload := { parsed := none } }]).2 =
      [{ i_pts := 3, payload := { parsed := none } },
       { i_pts := 20, payload := { parsed := none } }] ∧
    (drainMany fmt1 [5, 25]
        [{ i_pts := 3, payload := { parsed := none } },
         { i_pts := 20, payload := { parsed := none } }]).1 = [] :=
  repeated_drain_dequeues_all_in_order fmt1 [5, 25] _ (by decide)
    (by simp [List.chain'_cons]) ⟨25, by decide, by decide⟩

/-- Claim C4: the pending-subpicture slot is a single `Option` (at most one
frame descriptor awaits hand-off); while it is occupied, `pes_cb` leaves it
untouched but still enqueues the packet; and the slot can only change when
it was empty and the incoming skew-adjusted PTS differs from the last
recorded PTS. -/
theorem single_pending_frame_gate (sys : DecoderSys) (buf : RawPES) :
    (sys.subpic.isSome = true → (pes_cb sys buf).subpic = sys.subpic) ∧
    (sys.subpic.isSome = true → ∀ pkt, buf.parsed = some pkt →
      (pes_cb sys buf).fifo =
        sys.fifo ++ [{ i_pts := pkt.PTS + sys.i_pts_skew, payload := buf }]) ∧
    ((pes_cb sys buf).subpic ≠ sys.subpic →
      sys.subpic = none ∧
        ∃ pkt, buf.parsed = some pkt ∧ pkt.PTS + sys.i_pts_skew ≠ sys.i_last_pts) := by
  obtain ⟨parsed⟩ := buf
  cases parsed with
  | none => simp [pes_cb]
  | some pkt =>
    simp only [pes_cb]
    split_ifs with hc hz
    · refine ⟨fun hs => ?_, fun hs => ?_, fun _ => ⟨hc.2, pkt, rfl, hc.1⟩⟩
      · rw [hc.2] at hs; simp at hs
      · rw [hc.2] at hs; simp at hs
    · refine ⟨fun hs => ?_, fun hs => ?_, fun _ => ⟨hc.2, pkt, rfl, hc.1⟩⟩
      · rw [hc.2] at hs; simp at hs
      · rw [hc.2] at hs; simp at hs
    · refine ⟨fun _ => rfl, fun _ pkt' hp => ?_, fun hne => absurd rfl hne⟩
      obtain rfl : pkt = pkt' := by simpa using hp
      rfl

/-- Witness for C4 at a concrete occupied state. -/
theorem single_pending_frame_gate_witness :
    (({ initSys with subpic := some sub0 } : DecoderSys).subpic.isSome = true →
      (pes_cb { initSys with subpic := some sub0 } pesA).subpic =
        ({ initSys with subpic := some sub0 } : DecoderSys).subpic) ∧
    (({ initSys with subpic := some sub0 } : DecoderSys).subpic.isSome = true →
      ∀ pkt, pesA.parsed = some pkt →
      (pes_cb { initSys with subpic := some sub0 } pesA).fifo =
        ({ initSys with subpic := some sub0 } : DecoderSys).fifo ++
          [{ i_pts := pkt.PTS + ({ initSys with subpic := some sub0 } : DecoderSys).i_pts_skew,
             payload := pesA }]) ∧
    ((pes_cb { initSys with subpic := some sub0 } pesA).subpic ≠
        ({ initSys with subpic := some sub0 } : DecoderSys).subpic →
      ({ initSys with subpic := some sub0 } : DecoderSys).subpic = none ∧
        ∃ pkt, pesA.parsed = some pkt ∧
          pkt.PTS + ({ initSys with subpic := some sub0 } : DecoderSys).i_pts_skew ≠
            ({ initSys with subpic := some sub0 } : DecoderSys).i_last_pts) :=
  single_pending_frame_gate { initSys with subpic := some sub0 } pesA

/-- Claim C5: every PES buffer that parses successfully at ingestion is
appended to the pending frame queue keyed by its skew-adjusted PTS, whether
or not a new subpicture was opened for it. -/
theorem parsed_pes_always_enqueued (sys : DecoderSys) (buf : RawPES) (pkt : AncPacket)
    (h : buf.parsed = some pkt) :
    (pes_cb sys buf).fifo =
      sys.fifo ++ [{ i_pts := pkt.PTS + sys.i_pts_skew, payload := buf }] := by
  obtain ⟨parsed⟩ := buf
  cases parsed with
  | none => simp at h
  | some pkt' =>
    obtain rfl : pkt' = pkt := by simpa using h
    simp only [pes_cb]
    split_ifs <;> rfl

/-- Witness for C5 at a concrete state. -/
theorem parsed_pes_always_enqueued_witness :
    (pes_cb initSys pesA).fifo =
      initSys.fifo ++ [{ i_pts := 7 + initSys.i_pts_skew, payload := pesA }] :=
  parsed_pes_always_enqueued initSys pesA { PTS := 7, lines := [] } rfl

/-- Claim C8: every subpicture opened at ingestion is given a display start
equal to its skew-adjusted 90kHz PTS times 100 divided by 9 (truncating C
division to microseconds) and a display stop exactly `CLOCK_FREQ / 30`
later — a 1/30-second display window. -/
theorem opened_subpic_display_window (sys : DecoderSys) (buf : RawPES) (spu : Subpic)
    (hnone : sys.subpic = none)
    (hsp : (pes_cb sys buf).subpic = some spu) :
    ∃ pkt, buf.parsed = some pkt ∧
      spu.i_start = ((pkt.PTS + sys.i_pts_skew) * 100).tdiv 9 ∧
      spu.i_stop = spu.i_start + CLOCK_FREQ.tdiv 30 := by
  obtain ⟨parsed⟩ := buf
  cases parsed with
  | none =>
    rw [show pes_cb sys { parsed := none } = sys from rfl, hnone] at hsp
    exact absurd hsp (by simp)
  | some pkt =>
    simp only [pes_cb] at hsp
    split_ifs at hsp with hc hz
    · obtain rfl := Option.some.inj hsp
      exact ⟨pkt, rfl, rfl, rfl⟩
    · obtain rfl := Option.some.inj hsp
      exact ⟨pkt, rfl, rfl, rfl⟩
    · have h2 : sys.subpic = some spu := hsp
      rw [hnone] at h2
      exact absurd h2 (by simp)

/-- Witness for C8 at a concrete state. -/
theorem opened_subpic_display_window_witness :
    ∃ pkt, pesA.parsed = some pkt ∧
      (Subpic.mk 77 33410 7 false true 0 0 []).i_start =
        ((pkt.PTS + initSys.i_pts_skew) * 100).tdiv 9 ∧
      (Subpic.mk 77 33410 7 false true 0 0 []).i_stop =
        (Subpic.mk 77 33410 7 false true 0 0 []).i_start + CLOCK_FREQ.tdiv 30 :=
  opened_subpic_display_window initSys pesA _ rfl (by decide)

/-- Claim C10: `Decode` on a corrupted input block, or one whose PTS is not
positive, releases the block and returns no subpicture, with the entire
decoder state — pending frame queue, cached demux PTS, PTS skew, last-seen
PTS and pending subpicture slot — unchanged, and nothing pushed into the
PES extractor. -/
theorem decode_rejects_bad_block (sys : DecoderSys) (b : InputBlock)
    (h : b.corrupted = true ∨ b.i_pts ≤ 0) :
    Decode sys (some b) = (sys, none) := by
  unfold Decode
  rcases h with h | h
  · simp [h]
  · by_cases hc : b.corrupted <;> simp [hc, h]

/-- Witness for C10 on a concrete corrupted block and a concrete
non-positive-PTS block. -/
theorem decode_rejects_bad_block_witness :
    Decode initSys (some { corrupted := true, i_pts := 5, pes := [pesA] }) =
      (initSys, none) :=
  decode_rejects_bad_block initSys _ (Or.inl rfl)

/-- One `pes_cb` call preserves an already-established skew `delta` when the
incoming packet's declared PTS sits exactly `delta` below the cached demux
PTS, leaves the cached demux PTS alone, and enqueues (at most) the incoming
packet keyed by its declared PTS plus `delta`. -/
theorem pes_cb_skew_inv (delta : Int) (sys : DecoderSys) (buf : RawPES)
    (hs : sys.i_pts_skew = delta)
    (hr : ∀ pkt, buf.parsed = some pkt → pkt.PTS = sys.i_demux_pts - delta) :
    (pes_cb sys buf).i_pts_skew = delta ∧
      (pes_cb sys buf).i_demux_pts = sys.i_demux_pts ∧
      ∃ new, (pes_cb sys buf).fifo = sys.fifo ++ new ∧
        ∀ e ∈ new, ∀ pkt, e.payload.parsed = some pkt → e.i_pts = pkt.PTS + delta := by
  obtain ⟨parsed⟩ := buf
  cases parsed with
  | none => exact ⟨hs, rfl, [], by simp [pes_cb], by simp⟩
  | some pkt =>
    have hpts := hr pkt rfl
    have hnew : ∀ e ∈ [FifoBlock.mk (pkt.PTS + sys.i_pts_skew) (RawPES.mk (some pkt))],
        ∀ pkt' : AncPacket, e.payload.parsed = some pkt' → e.i_pts = pkt'.PTS + delta := by
      intro e he pkt' hp
      rw [List.mem_singleton] at he
      subst he
      obtain rfl : pkt = pkt' := by simpa using hp
      rw [hs]
    simp only [pes_cb]
    split_ifs with hc hz
    · refine ⟨?_, rfl, _, rfl, hnew⟩
      show sys.i_demux_pts - (pkt.PTS + sys.i_pts_skew) = delta
      rw [hs] at hz
      rw [hpts, hs]
      omega
    · exact ⟨hs, rfl, _, rfl, hnew⟩
    · exact ⟨hs, rfl, _, rfl, hnew⟩

/-- Folding `pes_cb` over the PES buffers of one input block preserves an
established skew `delta` and the cached demux PTS, and keys every newly
enqueued entry by its declared PTS plus `delta`. -/
theorem foldl_pes_cb_skew_inv (delta : Int) (rs : List RawPES) (sys : DecoderSys)
    (hs : sys.i_pts_skew = delta)
    (hrs : ∀ r ∈ rs, ∀ pkt, r.parsed = some pkt → pkt.PTS = sys.i_demux_pts - delta) :
    (rs.foldl pes_cb sys).i_pts_skew = delta ∧
      (rs.foldl pes_cb sys).i_demux_pts = sys.i_demux_pts ∧
      ∃ new, (rs.foldl pes_cb sys).fifo = sys.fifo ++ new ∧
        ∀ e ∈ new, ∀ pkt, e.payload.parsed = some pkt → e.i_pts = pkt.PTS + delta := by
  induction rs generalizing sys with
  | nil => exact ⟨hs, rfl, [], by simp, by simp⟩
  | cons r rs ih =>
    obtain ⟨hskew1, hdemux1, new1, hfifo1, hnew1⟩ :=
      pes_cb_skew_inv delta sys r hs (hrs r (List.mem_cons_self r rs))
    obtain ⟨hskew2, hdemux2, new2, hfifo2, hnew2⟩ :=
      ih (pes_cb sys r) hskew1 (by
        intro r' hr' pkt hp
        rw [hdemux1]
        exact hrs r' (List.mem_cons_of_mem r hr') pkt hp)
    refine ⟨hskew2, by rw [List.foldl_cons] at *; rw [hdemux2, hdemux1],
      new1 ++ new2, ?_, ?_⟩
    · rw [List.foldl_cons] at *
      rw [hfifo2, hfifo1, List.append_assoc]
    · intro e he
      rcases List.mem_append.mp he with he | he
      · exact hnew1 e he
      · exact hnew2 e he

/-- `Decode` preserves an established skew `delta` when every PES buffer the
extractor emits from the block declares a PTS exactly `delta` below the
block's demux PTS, and keys every newly enqueued entry by its declared PTS
plus `delta`. -/
theorem decode_skew_inv (delta : Int) (sys : DecoderSys) (b : InputBlock)
    (hs : sys.i_pts_skew = delta)
    (hb : ∀ r ∈ b.pes, ∀ pkt, r.parsed = some pkt → pkt.PTS = b.i_pts - delta) :
    (Decode sys (some b)).1.i_pts_skew = delta ∧
      ∃ new, (Decode sys (some b)).1.fifo = sys.fifo ++ new ∧
        ∀ e ∈ new, ∀ pkt, e.payload.parsed = some pkt → e.i_pts = pkt.PTS + delta := by
  unfold Decode
  by_cases hcor : b.corrupted
  · exact ⟨by simp [hcor, hs], [], by simp [hcor], by simp⟩
  · by_cases hpts : b.i_pts ≤ 0
    · exact ⟨by simp [hcor, hpts, hs], [], by simp [hcor, hpts], by simp⟩
    · obtain ⟨hskew, hdemux, new, hfifo, hnew⟩ :=
        foldl_pes_cb_skew_inv delta b.pes { sys with i_demux_pts := b.i_pts } hs hb
      simp only [hcor, hpts, if_false]
      cases hsp : (b.pes.foldl pes_cb { sys with i_demux_pts := b.i_pts }).subpic with
      | some spu =>
        exact ⟨by simpa [hsp] using hskew, new, by simpa [hsp] using hfifo, hnew⟩
      | none =>
        exact ⟨by simpa [hsp] using hskew, new, by simpa [hsp] using hfifo, hnew⟩

/-- Running `Decode` over any list of constant-delta blocks preserves an
established skew `delta` and keys every newly enqueued entry by its declared
PTS plus `delta`. -/
theorem runDecode_skew_inv (delta : Int) (sys : DecoderSys) (blocks : List InputBlock)
    (hs : sys.i_pts_skew = delta)
    (hbs : ∀ b ∈ blocks, ∀ r ∈ b.pes, ∀ pkt, r.parsed = some pkt →
      pkt.PTS = b.i_pts - delta) :
    (runDecode sys blocks).i_pts_skew = delta ∧
      ∃ new, (runDecode sys blocks).fifo = sys.fifo ++ new ∧
        ∀ e ∈ new, ∀ pkt, e.payload.parsed = some pkt → e.i_pts = pkt.PTS + delta := by
  induction blocks generalizing sys with
  | nil => exact ⟨hs, [], by simp [runDecode], by simp⟩
  | cons b blocks ih =>
    obtain ⟨hskew1, new1, hfifo1, hnew1⟩ :=
      decode_skew_inv delta sys b hs (hbs b (List.mem_cons_self b blocks))
    obtain ⟨hskew2, new2, hfifo2, hnew2⟩ :=
      ih (Decode sys (some b)).1 hskew1
        (fun b' hb' => hbs b' (List.mem_cons_of_mem b hb'))
    refine ⟨by simpa [runDecode] using hskew2, new1 ++ new2, ?_, ?_⟩
    · have : runDecode sys (b :: blocks) = runDecode (Decode sys (some b)).1 blocks := rfl
      rw [this, hfifo2, hfifo1, List.append_assoc]
    · intro e he
      rcases List.mem_append.mp he with he | he
      · exact hnew1 e he
      · exact hnew2 e he

/-- Claim C3: with the stream's declared PTS values a constant `delta` below
the demux timestamps, the skew is computed at the first skew computation
(the first subpicture opening, reached with the skew still zero) as the
cached demux PTS minus the packet's declared PTS; it then stays constant
across every further ingested block, and is added to the declared PTS of
every subsequently enqueued PES packet. -/
theorem pts_skew_computed_once_and_applied (delta : Int) (sys : DecoderSys)
    (buf : RawPES) (pkt : AncPacket) (blocks : List InputBlock)
    (hskew0 : sys.i_pts_skew = 0) (hsub : sys.subpic = none)
    (hbuf : buf.parsed = some pkt)
    (hne : pkt.PTS ≠ sys.i_last_pts)
    (hd : sys.i_demux_pts - pkt.PTS = delta)
    (hbs : ∀ b ∈ blocks, ∀ r ∈ b.pes, ∀ pkt', r.parsed = some pkt' →
      pkt'.PTS = b.i_pts - delta) :
    (pes_cb sys buf).i_pts_skew = sys.i_demux_pts - pkt.PTS ∧
      (runDecode (pes_cb sys buf) blocks).i_pts_skew = delta ∧
      ∃ new, (runDecode (pes_cb sys buf) blocks).fifo = (pes_cb sys buf).fifo ++ new ∧
        ∀ e ∈ new, ∀ pkt', e.payload.parsed = some pkt' → e.i_pts = pkt'.PTS + delta := by
  obtain ⟨parsed⟩ := buf
  cases parsed with
  | none => simp at hbuf
  | some pkt' =>
    obtain rfl : pkt' = pkt := by simpa using hbuf
    have h1 : (pes_cb sys { parsed := some pkt' }).i_pts_skew =
        sys.i_demux_pts - pkt'.PTS := by
      simp only [pes_cb]
      split_ifs with hc
      · show sys.i_demux_pts - (pkt'.PTS + sys.i_pts_skew) = sys.i_demux_pts - pkt'.PTS
        rw [hskew0]
        ring
      · refine absurd ⟨?_, hsub⟩ hc
        rw [hskew0]
        simpa using hne
    have h2 := runDecode_skew_inv delta (pes_cb sys { parsed := some pkt' }) blocks
      (by rw [h1, hd]) hbs
    exact ⟨h1, h2.1, h2.2⟩

/-- Witness for C3: demux clock 93 ahead of the declared PES PTS values; one
opening packet (declared PTS 7, demux 100) and one further input block
(declared PTS 107, demux 200). -/
theorem pts_skew_computed_once_and_applied_witness :
    (pes_cb sysW pesA).i_pts_skew = sysW.i_demux_pts - (7 : Int) ∧
      (runDecode (pes_cb sysW pesA) [blockW]).i_pts_skew = 93 ∧
      ∃ new, (runDecode (pes_cb sysW pesA) [blockW]).fifo =
          (pes_cb sysW pesA).fifo ++ new ∧
        ∀ e ∈ new, ∀ pkt', e.payload.parsed = some pkt' → e.i_pts = pkt'.PTS + 93 :=
  pts_skew_computed_once_and_applied 93 sysW pesA { PTS := 7, lines := [] } [blockW]
    rfl rfl rfl (by decide) (by decide)
    (by
      intro b hb r hr pkt' hp
      rw [List.mem_singleton] at hb
      subst hb
      rw [show blockW.pes = [{ parsed := some { PTS := 107, lines := [] } }] from rfl,
        List.mem_singleton] at hr
      subst hr
      obtain rfl : ({ PTS := 107, lines := [] } : AncPacket) = pkt' := by simpa using hp
      decide)

/-- The line loop only ever adds regions: whatever is on the region list
stays on it. -/
theorem processLines_mono (ls : List AncLine) (regs : List Region) (r : Region)
    (h : r ∈ regs) : r ∈ processLines ls regs := by
  induction ls generalizing regs with
  | nil => exact h
  | cons l ls ih =>
    cases hc : l.convResult with
    | none => simpa [processLines, hc] using h
    | some ws =>
      simp only [processLines, hc]
      exact ih _ (List.mem_cons_of_mem _ h)

/-- The drain loop only ever adds regions: whatever is on the region list
stays on it. -/
theorem drainLoop_regs_mono (target : Int) (fifo : List FifoBlock)
    (regs : List Region) (r : Region) (h : r ∈ regs) :
    r ∈ (drainLoop target fifo regs).2.1 := by
  induction fifo generalizing regs with
  | nil => exact h
  | cons b rest ih =>
    by_cases hgt : b.i_pts > target
    · simpa [drainLoop, hgt] using h
    · cases hp : b.payload.parsed with
      | none => simpa [drainLoop, hgt, hp] using ih regs h
      | some pkt =>
        simpa [drainLoop, hgt, hp] using
          ih (processLines pkt.lines regs) (processLines_mono pkt.lines regs r h)

/-- With every line before the break point expanding successfully, the line
loop on `good ++ bad :: rest` stops at `bad` having produced exactly the
regions of `good`, newest first, on top of the incoming list. -/
theorem processLines_good_then_bad (good : List AncLine) (bad : AncLine)
    (rest : List AncLine) (regs : List Region)
    (hgood : ∀ l ∈ good, l.convResult.isSome = true)
    (hbad : bad.convResult = none) :
    processLines (good ++ bad :: rest) regs = (regionsOfLines good).reverse ++ regs := by
  induction good generalizing regs with
  | nil => simp [processLines, hbad, regionsOfLines]
  | cons l good ih =>
    obtain ⟨ws, hws⟩ := Option.isSome_iff_exists.mp (hgood l (List.mem_cons_self l good))
    rw [List.cons_append]
    simp only [processLines, hws]
    rw [ih _ (fun l' hl' => hgood l' (List.mem_cons_of_mem l hl'))]
    simp [regionsOfLines, hws]

/-- When every line expands successfully, the line regions are in bijection
with the lines. -/
theorem regionsOfLines_length (ls : List AncLine)
    (h : ∀ l ∈ ls, l.convResult.isSome = true) :
    (regionsOfLines ls).length = ls.length := by
  induction ls with
  | nil => rfl
  | cons l ls ih =>
    obtain ⟨ws, hws⟩ := Option.isSome_iff_exists.mp (h l (List.mem_cons_self l ls))
    simp [regionsOfLines, hws]
    simpa [regionsOfLines] using ih (fun l' hl' => h l' (List.mem_cons_of_mem l hl'))

/-- A line that is reached (every earlier line expanded successfully) and
expands successfully contributes its region to the line loop's output. -/
theorem processLines_reached_mem (pre : List AncLine) (l : AncLine)
    (post : List AncLine) (ws : List Nat) (regs : List Region)
    (hpre : ∀ l' ∈ pre, l'.convResult.isSome = true)
    (hl : l.convResult = some ws) :
    regionOfLine l ws ∈ processLines (pre ++ l :: post) regs := by
  induction pre generalizing regs with
  | nil =>
    simp only [List.nil_append, processLines, hl]
    exact processLines_mono post _ _ (List.mem_cons_self _ _)
  | cons l' pre ih =>
    obtain ⟨ws', hws'⟩ := Option.isSome_iff_exists.mp (hpre l' (List.mem_cons_self l' pre))
    rw [List.cons_append]
    simp only [processLines, hws']
    exact ih _ (fun x hx => hpre x (List.mem_cons_of_mem l' hx))

/-- Popping a parse-failing due entry has no effect on the drain loop's
remaining queue or produced regions. -/
theorem drainLoop_skips_unparsed (target : Int) (q1 q2 : List FifoBlock)
    (bad : FifoBlock) (regs : List Region)
    (hq1 : ∀ b ∈ q1, b.i_pts ≤ target)
    (hbadpts : bad.i_pts ≤ target)
    (hbadparse : bad.payload.parsed = none) :
    (drainLoop target (q1 ++ bad :: q2) regs).1 = (drainLoop target (q1 ++ q2) regs).1 ∧
      (drainLoop target (q1 ++ bad :: q2) regs).2.1 =
        (drainLoop target (q1 ++ q2) regs).2.1 := by
  induction q1 generalizing regs with
  | nil =>
    have hgt : ¬bad.i_pts > target := by omega
    simp [drainLoop, hgt, hbadparse]
  | cons b q1 ih =>
    have hble : b.i_pts ≤ target := hq1 b (List.mem_cons_self b q1)
    have hgt : ¬b.i_pts > target := by omega
    have htail : ∀ x ∈ q1, x.i_pts ≤ target :=
      fun x hx => hq1 x (List.mem_cons_of_mem b hx)
    cases hp : b.payload.parsed with
    | none => simp [drainLoop, hgt, hp, (ih _ htail).1, (ih _ htail).2]
    | some pkt => simp [drainLoop, hgt, hp, (ih _ htail).1, (ih _ htail).2]

/-- A region already produced, or producible from a popped packet, survives
to the end of the drain loop: if `b` is popped and parses to `pkt`, any
region that the line loop of `pkt` puts on every region list is on the final
region list. -/
theorem drainLoop_popped_region (target : Int) (fifo : List FifoBlock)
    (regs : List Region) (b : FifoBlock) (pkt : AncPacket) (r : Region)
    (hb : b ∈ (drainLoop target fifo regs).2.2)
    (hp : b.payload.parsed = some pkt)
    (hr : ∀ regs' : List Region, r ∈ processLines pkt.lines regs') :
    r ∈ (drainLoop target fifo regs).2.1 := by
  induction fifo generalizing regs with
  | nil => simp [drainLoop] at hb
  | cons hd rest ih =>
    by_cases hgt : hd.i_pts > target
    · simp [drainLoop, hgt] at hb
    · cases hph : hd.payload.parsed with
      | none =>
        simp only [drainLoop, hgt, if_false, hph] at hb ⊢
        rcases List.mem_cons.mp hb with rfl | hb
        · rw [hph] at hp
          exact absurd hp (by simp)
        · exact ih regs hb
      | some pkt' =>
        simp only [drainLoop, hgt, if_false, hph] at hb ⊢
        rcases List.mem_cons.mp hb with rfl | hb
        · rw [hph] at hp
          obtain rfl : pkt' = pkt := by simpa using hp
          exact drainLoop_regs_mono target rest _ r (hr _)
        · exact ih (processLines pkt'.lines regs) hb

/-- Claim C6: draining a due packet whose payload holds a prefix of lines
that all pass validation followed by a line whose word expansion fails
yields output regions for exactly that prefix — as many regions as valid
lines, none from the failing line onwards — and the drain completes
normally. -/
theorem valid_prefix_before_bad_line (subpic : Subpic) (target : Int)
    (fmt_dst : VideoFormat) (b : FifoBlock) (pkt : AncPacket)
    (good : List AncLine) (bad : AncLine) (rest : List AncLine)
    (hfmt : fmt_dst.i_sar_num ≠ 0 ∧ fmt_dst.i_sar_den ≠ 0)
    (hdue : b.i_pts ≤ target)
    (hp : b.payload.parsed = some pkt)
    (hlines : pkt.lines = good ++ bad :: rest)
    (hgood : ∀ l ∈ good, l.convResult.isSome = true)
    (hbad : bad.convResult = none) :
    (SubpictureTextUpdateSmpte2038 subpic target fmt_dst [b]).1.regions =
        (regionsOfLines good).reverse ++ subpic.regions ∧
      (regionsOfLines good).length = good.length := by
  have hg : ¬(fmt_dst.i_sar_num = 0 ∨ fmt_dst.i_sar_den = 0) := by
    rcases hfmt with ⟨h1, h2⟩
    intro hc
    rcases hc with hc | hc <;> [exact h1 hc; exact h2 hc]
  have hgt : ¬b.i_pts > target := by omega
  unfold SubpictureTextUpdateSmpte2038
  simp only [hg, if_false]
  refine ⟨?_, regionsOfLines_length good hgood⟩
  show (drainLoop target [b] subpic.regions).2.1 = _
  simp only [drainLoop, hgt, if_false, hp]
  rw [hlines]
  exact processLines_good_then_bad good bad rest subpic.regions hgood hbad

/-- Witness for C6: two valid lines, then a failing one, then a stray line
that is never attempted. -/
theorem valid_prefix_before_bad_line_witness :
    (SubpictureTextUpdateSmpte2038 sub0 15 fmt1
        [{ i_pts := 10,
           payload := { parsed := some { PTS := 7, lines := [lineA, lineB, lineBad, lineA] } } }]).1.regions =
        (regionsOfLines [lineA, lineB]).reverse ++ sub0.regions ∧
      (regionsOfLines [lineA, lineB]).length = [lineA, lineB].length :=
  valid_prefix_before_bad_line sub0 15 fmt1 _ _ [lineA, lineB] lineBad [lineA]
    (by decide) (by decide) rfl rfl (by decide) rfl

/-- Claim C7: a due queue entry whose payload fails to parse at drain time
is popped, released and skipped with no effect on its siblings — the
resulting subpicture (regions included) and the remaining queue are
identical to a drain of the same queue without that entry. -/
theorem unparsed_packet_skipped (subpic : Subpic) (target : Int)
    (fmt_dst : VideoFormat) (q1 q2 : List FifoBlock) (bad : FifoBlock)
    (hfmt : fmt_dst.i_sar_num ≠ 0 ∧ fmt_dst.i_sar_den ≠ 0)
    (hq1 : ∀ b ∈ q1, b.i_pts ≤ target)
    (hbadpts : bad.i_pts ≤ target)
    (hbadparse : bad.payload.parsed = none) :
    (SubpictureTextUpdateSmpte2038 subpic target fmt_dst (q1 ++ bad :: q2)).1 =
        (SubpictureTextUpdateSmpte2038 subpic target fmt_dst (q1 ++ q2)).1 ∧
      (SubpictureTextUpdateSmpte2038 subpic target fmt_dst (q1 ++ bad :: q2)).2.1 =
        (SubpictureTextUpdateSmpte2038 subpic target fmt_dst (q1 ++ q2)).2.1 := by
  have hg : ¬(fmt_dst.i_sar_num = 0 ∨ fmt_dst.i_sar_den = 0) := by
    rcases hfmt with ⟨h1, h2⟩
    intro hc
    rcases hc with hc | hc <;> [exact h1 hc; exact h2 hc]
  obtain ⟨hrem, hregs⟩ :=
    drainLoop_skips_unparsed target q1 q2 bad subpic.regions hq1 hbadpts hbadparse
  unfold SubpictureTextUpdateSmpte2038
  simp only [hg, if_false]
  constructor
  · show ({ subpic with
        i_original_picture_width := fmt_dst.i_width * fmt_dst.i_sar_num / fmt_dst.i_sar_den
        i_original_picture_height := fmt_dst.i_height
        regions := (drainLoop target (q1 ++ bad :: q2) subpic.regions).2.1 } : Subpic) = _
    rw [hregs]
  · exact hrem

/-- Witness for C7: a parse-failing entry between two parsing siblings. -/
theorem unparsed_packet_skipped_witness :
    (SubpictureTextUpdateSmpte2038 sub0 10 fmt1
        ([{ i_pts := 5, payload := { parsed := some { PTS := 5, lines := [lineA] } } }] ++
          FifoBlock.mk 6 (RawPES.mk none) ::
            [{ i_pts := 7, payload := { parsed := some { PTS := 7, lines := [lineB] } } }])).1 =
        (SubpictureTextUpdateSmpte2038 sub0 10 fmt1
          ([{ i_pts := 5, payload := { parsed := some { PTS := 5, lines := [lineA] } } }] ++
            [{ i_pts := 7, payload := { parsed := some { PTS := 7, lines := [lineB] } } }])).1 ∧
      (SubpictureTextUpdateSmpte2038 sub0 10 fmt1
          ([{ i_pts := 5, payload := { parsed := some { PTS := 5, lines := [lineA] } } }] ++
            FifoBlock.mk 6 (RawPES.mk none) ::
              [{ i_pts := 7, payload := { parsed := some { PTS := 7, lines := [lineB] } } }])).2.1 =
        (SubpictureTextUpdateSmpte2038 sub0 10 fmt1
          ([{ i_pts := 5, payload := { parsed := some { PTS := 5, lines := [lineA] } } }] ++
            [{ i_pts := 7, payload := { parsed := some { PTS := 7, lines := [lineB] } } }])).2.1 :=
  unparsed_packet_skipped sub0 10 fmt1 _ _ (FifoBlock.mk 6 (RawPES.mk none))
    (by decide) (by decide) (by decide) rfl

/-- Claim C9: every ancillary line that is reached and successfully expanded
at drain time contributes a region placed at column 0 on its line number,
of height 1 and width twice the expanded word count, to the frame's region
list. -/
theorem expanded_line_region_geometry (subpic : Subpic) (target : Int)
    (fmt_dst : VideoFormat) (fifo : List FifoBlock) (b : FifoBlock)
    (pkt : AncPacket) (pre post : List AncLine) (l : AncLine) (ws : List Nat)
    (hb : b ∈ (SubpictureTextUpdateSmpte2038 subpic target fmt_dst fifo).2.2)
    (hp : b.payload.parsed = some pkt)
    (hlines : pkt.lines = pre ++ l :: post)
    (hpre : ∀ x ∈ pre, x.convResult.isSome = true)
    (hl : l.convResult = some ws) :
    ({ i_x := 0, i_y := l.line_number, i_width := ws.length * 2, i_height := 1,
        pixels := ws } : Region) ∈
      (SubpictureTextUpdateSmpte2038 subpic target fmt_dst fifo).1.regions := by
  by_cases hg : fmt_dst.i_sar_num = 0 ∨ fmt_dst.i_sar_den = 0
  · unfold SubpictureTextUpdateSmpte2038 at hb
    simp [hg] at hb
  · unfold SubpictureTextUpdateSmpte2038 at hb ⊢
    simp only [hg, if_false] at hb ⊢
    show regionOfLine l ws ∈ (drainLoop target fifo subpic.regions).2.1
    refine drainLoop_popped_region target fifo subpic.regions b pkt _ hb hp ?_
    intro regs'
    rw [hlines]
    exact processLines_reached_mem pre l post ws regs' hpre hl

/-- Witness for C9: the second line of a popped two-line packet. -/
theorem expanded_line_region_geometry_witness :
    ({ i_x := 0, i_y := lineB.line_number, i_width := [5, 6].length * 2, i_height := 1,
        pixels := [5, 6] } : Region) ∈
      (SubpictureTextUpdateSmpte2038 sub0 15 fmt1
        [{ i_pts := 10,
           payload := { parsed := some { PTS := 7, lines := [lineA, lineB] } } }]).1.regions :=
  expanded_line_region_geometry sub0 15 fmt1
    [{ i_pts := 10, payload := { parsed := some { PTS := 7, lines := [lineA, lineB] } } }]
    { i_pts := 10, payload := { parsed := some { PTS := 7, lines := [lineA, lineB] } } }
    { PTS := 7, lines := [lineA, lineB] } [lineA] [] lineB [5, 6]
    (by decide) rfl rfl (by decide) (by decide)

end Smpte2038
